import Mathlib

/-!
Verification of the SPSC ring buffer (src/include/spsc_ring.h).

The development shallowly embeds the C++ class `SPSC::SpscRing<T>` and the
helper namespace `SPSC::BitOps` into Lean.  Machine integers (`std::size_t`,
`std::uint64_t`) are modelled as `Nat` with explicit `% 2 ^ 64` where the
source can overflow; the single-producer/single-consumer protocol is modelled
sequentially (each operation is an atomic step on the whole state), which is
the sequential semantics the functional claims quantify over.
-/

namespace SPSC

/-- Embeds `BitOps::isPow2` from src/include/spsc_ring.h:
`v && ((v & (v - 1)) == 0)` on `std::uint64_t`. -/
def isPow2 (v : Nat) : Bool :=
  v != 0 && (v &&& (v - 1)) == 0

/-- Embeds `BitOps::ceilPow2` (the portable bit-smearing path) from
src/include/spsc_ring.h.  The final `v + 1` is performed on `std::uint64_t`,
hence the `% 2 ^ 64`; the shifts and ors cannot overflow. -/
def ceilPow2 (v : Nat) : Nat :=
  if v ≤ 1 then 1
  else
    let x0 := v - 1
    let x1 := x0 ||| (x0 >>> 1)
    let x2 := x1 ||| (x1 >>> 2)
    let x3 := x2 ||| (x2 >>> 4)
    let x4 := x3 ||| (x3 >>> 8)
    let x5 := x4 ||| (x4 >>> 16)
    let x6 := x5 ||| (x5 >>> 32)
    (x6 + 1) % 2 ^ 64

/-- A number whose binary representation lies in `[2 ^ L, 2 ^ (L + 1))` has
bit `L` set. -/
lemma testBit_of_bounds {x L : Nat} (h1 : 2 ^ L ≤ x) (h2 : x < 2 ^ (L + 1)) :
    x.testBit L = true := by
  rw [Nat.testBit_to_div_mod]
  have hpos : 0 < 2 ^ L := Nat.pos_pow_of_pos L (by norm_num)
  have hlo : 1 ≤ x / 2 ^ L := (Nat.le_div_iff_mul_le hpos).2 (by omega)
  have hhi : x / 2 ^ L < 2 := by
    apply Nat.div_lt_of_lt_mul
    calc x < 2 ^ (L + 1) := h2
    _ = 2 ^ L * 2 := by ring
  have : x / 2 ^ L = 1 := by omega
  simp [this]

/-- One smearing step `y ||| (y >>> w)` doubles the window of source bits
that feed each result bit. -/
lemma window_step {x y w : Nat}
    (h : ∀ j, y.testBit j = true ↔ ∃ d, d < w ∧ x.testBit (j + d) = true) :
    ∀ j, (y ||| (y >>> w)).testBit j = true ↔
      ∃ d, d < 2 * w ∧ x.testBit (j + d) = true := by
  intro j
  rw [Nat.testBit_lor, Bool.or_eq_true, Nat.testBit_shiftRight, h j, h (w + j)]
  constructor
  · rintro (⟨d, hd, hx⟩ | ⟨d, hd, hx⟩)
    · exact ⟨d, by omega, hx⟩
    · refine ⟨w + d, by omega, ?_⟩
      have he : j + (w + d) = w + j + d := by omega
      rw [he]; exact hx
  · rintro ⟨d, hd, hx⟩
    by_cases hc : d < w
    · exact Or.inl ⟨d, hc, hx⟩
    · refine Or.inr ⟨d - w, by omega, ?_⟩
      have he : w + j + (d - w) = j + d := by omega
      rw [he]; exact hx

/-- The trivial one-bit window, base case for the smearing cascade. -/
lemma window_base (x : Nat) :
    ∀ j, x.testBit j = true ↔ ∃ d, d < 1 ∧ x.testBit (j + d) = true := by
  intro j
  constructor
  · intro hx; exact ⟨0, by omega, by simpa using hx⟩
  · rintro ⟨d, hd, hx⟩
    have : d = 0 := by omega
    subst this; simpa using hx

/-- A value all of whose result bits see a window covering the top set bit
of `x`, where `x` has top bit `L`, is the all-ones pattern `2 ^ (L + 1) - 1`. -/
lemma smeared_eq {y x L w : Nat}
    (hwin : ∀ j, y.testBit j = true ↔ ∃ d, d < w ∧ x.testBit (j + d) = true)
    (hbitL : x.testBit L = true)
    (hhigh : ∀ m, L < m → x.testBit m = false)
    (hLw : L < w) : y = 2 ^ (L + 1) - 1 := by
  apply Nat.eq_of_testBit_eq
  intro j
  rw [Nat.testBit_two_pow_sub_one]
  by_cases hj : j ≤ L
  · have : y.testBit j = true := by
      rw [hwin j]
      exact ⟨L - j, by omega, by rw [show j + (L - j) = L by omega]; exact hbitL⟩
    rw [this]
    have hlt : j < L + 1 := by omega
    simp [hlt]
  · have : ¬ y.testBit j = true := by
      rw [hwin j]
      rintro ⟨d, hd, hx⟩
      rw [hhigh (j + d) (by omega)] at hx
      exact Bool.false_ne_true hx
    rw [Bool.not_eq_true] at this
    rw [this]
    have hlt : ¬ j < L + 1 := by omega
    simp [hlt]

/-- On requests `2 ≤ v ≤ 2 ^ 63`, the bit-smearing cascade of `ceilPow2`
computes exactly `2 ^ (log2 (v - 1) + 1)`. -/
lemma ceilPow2_eq_pow {v : Nat} (h2 : 2 ≤ v) (hv : v ≤ 2 ^ 63) :
    ceilPow2 v = 2 ^ ((v - 1).log2 + 1) := by
  have hx0 : v - 1 ≠ 0 := by omega
  set L := (v - 1).log2 with hL
  have hlo : 2 ^ L ≤ v - 1 := Nat.log2_self_le hx0
  have hhi : v - 1 < 2 ^ (L + 1) := Nat.lt_log2_self
  have hL63 : L ≤ 62 := by
    by_contra hc
    have : 2 ^ 63 ≤ 2 ^ L := Nat.pow_le_pow_right (by norm_num) (by omega)
    omega
  have hw1 := window_base (v - 1)
  have hw2 := window_step hw1
  have hw4 := window_step hw2
  have hw8 := window_step hw4
  have hw16 := window_step hw8
  have hw32 := window_step hw16
  have hw64 := window_step hw32
  have hbitL : (v - 1).testBit L = true := testBit_of_bounds hlo hhi
  have hhigh : ∀ m, L < m → (v - 1).testBit m = false := by
    intro m hm
    apply Nat.testBit_lt_two_pow
    calc v - 1 < 2 ^ (L + 1) := hhi
    _ ≤ 2 ^ m := Nat.pow_le_pow_right (by norm_num) (by omega)
  have hX6 := smeared_eq hw64 hbitL hhigh (by omega)
  unfold ceilPow2
  rw [if_neg (by omega)]
  simp only []
  rw [hX6, Nat.sub_add_cancel (Nat.one_le_two_pow)]
  exact Nat.mod_eq_of_lt (Nat.pow_lt_pow_right (by norm_num) (by omega))

/-- Masking with `2 ^ k - 1` is reduction modulo `2 ^ k`; this is the identity
the ring relies on when it writes `(index + 1) & (cap_ - 1)`. -/
lemma land_mask (x k : Nat) : x &&& (2 ^ k - 1) = x % 2 ^ k := by
  apply Nat.eq_of_testBit_eq
  intro j
  rw [Nat.testBit_land, Nat.testBit_two_pow_sub_one, Nat.testBit_mod_two_pow]
  exact Bool.and_comm _ _

/-- The `v && ((v & (v-1)) == 0)` test recognises exactly the powers of two. -/
lemma isPow2_iff {v : Nat} : isPow2 v = true ↔ ∃ k, v = 2 ^ k := by
  unfold isPow2
  rw [Bool.and_eq_true, bne_iff_ne, beq_iff_eq]
  constructor
  · rintro ⟨hne, hand⟩
    set L := v.log2 with hLdef
    have hlo : 2 ^ L ≤ v := Nat.log2_self_le hne
    have hhi : v < 2 ^ (L + 1) := Nat.lt_log2_self
    refine ⟨L, ?_⟩
    by_contra hne2
    have hgt : 2 ^ L < v := lt_of_le_of_ne hlo (Ne.symm hne2)
    have hb1 : v.testBit L = true := testBit_of_bounds hlo hhi
    have hb2 : (v - 1).testBit L = true := testBit_of_bounds (by omega) (by omega)
    have hb : (v &&& (v - 1)).testBit L = true := by
      rw [Nat.testBit_land, hb1, hb2]; rfl
    rw [hand, Nat.zero_testBit] at hb
    exact Bool.false_ne_true hb
  · rintro ⟨k, rfl⟩
    refine ⟨Nat.pos_iff_ne_zero.mp (Nat.pos_pow_of_pos k (by norm_num)), ?_⟩
    · apply Nat.eq_of_testBit_eq
      intro j
      rw [Nat.testBit_land, Nat.testBit_two_pow, Nat.testBit_two_pow_sub_one,
        Nat.zero_testBit]
      by_cases h : k = j
      · subst h; simp
      · simp [h]

/-- State of `SPSC::SpscRing<T>`: the storage size `cap_`, the masked index
counters `head_` and `tail_`, and the slot array `buffer_`.  A slot holding a
constructed value is `some v`; an uninitialised slot is `none`. -/
structure RingState (T : Type) where
  cap : Nat
  head : Nat
  tail : Nat
  buf : List (Option T)
deriving DecidableEq

/-- Embeds the constructor `SpscRing(std::size_t cap)`: the storage size is
`cap` if it is already a power of two and `ceilPow2(cap)` otherwise; both
counters start at 0 and all slots start uninitialised. -/
def mkRing (T : Type) (cap : Nat) : RingState T :=
  let capChecked := if isPow2 cap then cap else ceilPow2 cap
  { cap := capChecked, head := 0, tail := 0,
    buf := List.replicate capChecked none }

/-- Embeds the delegating default constructor `SpscRing() : SpscRing(1)`. -/
def mkRingDefault (T : Type) : RingState T := mkRing T 1

/-- Embeds `capacity()`, which returns `cap_` unchanged. -/
def capacity {T : Type} (s : RingState T) : Nat := s.cap

/-- Embeds `try_push(const T&)` (and, with identical body, `try_push(T&&)`):
load `tail_`, compute `(tail + 1) & (cap_ - 1)`, fail if that equals `head_`,
otherwise construct in place at slot `tail` and publish the new tail. -/
def tryPush {T : Type} (v : T) (s : RingState T) : Bool × RingState T :=
  let tail := s.tail
  let tailNext := (tail + 1) &&& (s.cap - 1)
  if tailNext == s.head then (false, s)
  else (true, { s with buf := s.buf.set tail (some v), tail := tailNext })

/-- Embeds `try_emplace(Args&&...)` applied to arguments that construct the
value `v`; the body is identical to `try_push`. -/
def tryEmplace {T : Type} (v : T) (s : RingState T) : Bool × RingState T :=
  let tail := s.tail
  let tailNext := (tail + 1) &&& (s.cap - 1)
  if tailNext == s.head then (false, s)
  else (true, { s with buf := s.buf.set tail (some v), tail := tailNext })

/-- Embeds the move overload `try_push(T&&)` with the moved-from status of the
caller's argument made explicit: the third component records whether
`std::move(v)` was consumed by a construction.  The source order is checked
first; `std::construct_at(..., std::move(v))` runs only on the success path. -/
def tryPushMove {T : Type} (v : T) (s : RingState T) :
    Bool × RingState T × Bool :=
  let tail := s.tail
  let tailNext := (tail + 1) &&& (s.cap - 1)
  if tailNext == s.head then (false, s, false)
  else (true, { s with buf := s.buf.set tail (some v), tail := tailNext }, true)

/-- Embeds `try_pop(T& out)`: fail if `head_ == tail_`; otherwise move the
slot's value out (the returned `some v` models the write to `out`; `none`
models `out` left untouched), destroy the slot, and publish the new head. -/
def tryPop {T : Type} (s : RingState T) : Option T × RingState T :=
  let head := s.head
  if head == s.tail then (none, s)
  else (s.buf.getD head none,
    { s with buf := s.buf.set head none, head := (head + 1) &&& (s.cap - 1) })

/-- Outcome of a push whose element construction itself may fail. -/
inductive PushOutcome where
  | ok
  | full
  | raised
  | terminated
deriving DecidableEq

/-- Embeds `try_push` for an element type whose construction may fail
(`construct = none` models a throwing `T(v)`).  `try_push` is declared
`noexcept(noexcept(T(v)))`, so a throwing construction propagates to the
caller (`raised`) before `tail_` is advanced. -/
def tryPushWith {T : Type} (construct : Option T) (s : RingState T) :
    PushOutcome × RingState T :=
  let tail := s.tail
  let tailNext := (tail + 1) &&& (s.cap - 1)
  if tailNext == s.head then (PushOutcome.full, s)
  else
    match construct with
    | none => (PushOutcome.raised, s)
    | some v =>
      (PushOutcome.ok, { s with buf := s.buf.set tail (some v), tail := tailNext })

/-- Embeds `try_emplace` for a failing construction.  `try_emplace` is
declared unconditionally `noexcept`, so a throwing construction calls
`std::terminate` (`terminated`) instead of propagating to the caller. -/
def tryEmplaceWith {T : Type} (construct : Option T) (s : RingState T) :
    PushOutcome × RingState T :=
  let tail := s.tail
  let tailNext := (tail + 1) &&& (s.cap - 1)
  if tailNext == s.head then (PushOutcome.full, s)
  else
    match construct with
    | none => (PushOutcome.terminated, s)
    | some v =>
      (PushOutcome.ok, { s with buf := s.buf.set tail (some v), tail := tailNext })

/-- Embeds the destructor's drain loop, counting `std::destroy_at` calls:
starting at `head_`, step by `(h + 1) & (cap_ - 1)` until `tail_` is reached.
The fuel argument makes the loop structural; `cap_` steps always suffice. -/
def destroyLoop (cap t : Nat) : Nat → Nat → Nat
  | 0, _ => 0
  | fuel + 1, h =>
    if h = t then 0 else destroyLoop cap t fuel ((h + 1) &&& (cap - 1)) + 1

/-- Number of element destructions performed by `~SpscRing()`. -/
def destructorCount {T : Type} (s : RingState T) : Nat :=
  destroyLoop s.cap s.tail s.cap s.head

/-- Pushes a list of values in sequence; the Boolean records whether every
push succeeded. -/
def pushAll {T : Type} (s : RingState T) : List T → Bool × RingState T
  | [] => (true, s)
  | v :: vs =>
    let r := tryPush v s
    let rest := pushAll r.2 vs
    (r.1 && rest.1, rest.2)

/-- One producer or consumer call in a sequential history. -/
inductive Op (T : Type) where
  | push (v : T)
  | pop
deriving DecidableEq

/-- Runs a sequential history of operations.  Returns the final state, the
list of successfully pushed values, and the list of successfully popped
values, each in call order. -/
def runOps {T : Type} (s : RingState T) :
    List (Op T) → RingState T × List T × List T
  | [] => (s, [], [])
  | Op.push v :: rest =>
    let r := tryPush v s
    let t := runOps r.2 rest
    (t.1, if r.1 then v :: t.2.1 else t.2.1, t.2.2)
  | Op.pop :: rest =>
    let r := tryPop s
    let t := runOps r.2 rest
    (t.1, t.2.1,
      match r.1 with
      | some v => v :: t.2.2
      | none => t.2.2)

/-- States reachable from `s0` by any sequence of (successful or failed)
`try_push`, `try_emplace` and `try_pop` calls. -/
inductive Reachable {T : Type} (s0 : RingState T) : RingState T → Prop where
  | init : Reachable s0 s0
  | push (v : T) {s : RingState T} :
      Reachable s0 s → Reachable s0 (tryPush v s).2
  | emplace (v : T) {s : RingState T} :
      Reachable s0 s → Reachable s0 (tryEmplace v s).2
  | pop {s : RingState T} : Reachable s0 s → Reachable s0 (tryPop s).2

/-- The occupancy `(tail_ - head_) mod cap_` determined by the two counters. -/
def liveCount {T : Type} (s : RingState T) : Nat :=
  (s.cap + s.tail - s.head) % s.cap

/-- The coupling invariant between a ring state and the abstract FIFO queue
`q` it holds: the storage size is the power of two fixed at construction, both
counters are in range, and the slots from `head_` onwards hold exactly the
elements of `q` in order. -/
structure Inv {T : Type} (s : RingState T) (q : List T) : Prop where
  pow : ∃ k, s.cap = 2 ^ k
  hlt : s.head < s.cap
  tlt : s.tail < s.cap
  blen : s.buf.length = s.cap
  qlen : q.length = (s.cap + s.tail - s.head) % s.cap
  qval : ∀ i, (hi : i < q.length) →
    s.buf.getD ((s.head + i) % s.cap) none = some (q.get ⟨i, hi⟩)

/-- Closed form for the occupancy when both counters are in range. -/
lemma count_closed {cap h t : Nat} (hh : h < cap) (ht : t < cap) :
    (cap + t - h) % cap = if h ≤ t then t - h else cap + t - h := by
  by_cases hle : h ≤ t
  · rw [if_pos hle, show cap + t - h = cap + (t - h) by omega, Nat.add_mod_left]
    exact Nat.mod_eq_of_lt (by omega)
  · rw [if_neg hle]
    exact Nat.mod_eq_of_lt (by omega)

/-- Closed form for a masked increment of an in-range counter. -/
lemma step_mod {cap x : Nat} (hx : x < cap) :
    (x + 1) % cap = if x + 1 = cap then 0 else x + 1 := by
  by_cases h : x + 1 = cap
  · rw [if_pos h, h, Nat.mod_self]
  · rw [if_neg h]
    exact Nat.mod_eq_of_lt (by omega)

/-- Offsets below `cap` from a common base are distinguished modulo `cap`. -/
lemma mod_cancel {cap h a b : Nat} (ha : a < cap) (hb : b < cap)
    (he : (h + a) % cap = (h + b) % cap) : a = b := by
  have h2 : a ≡ b [MOD cap] := Nat.ModEq.add_left_cancel' h he
  have h3 : a % cap = b % cap := h2
  rwa [Nat.mod_eq_of_lt ha, Nat.mod_eq_of_lt hb] at h3

/-- Walking the occupancy forward from `head` lands exactly on `tail`. -/
lemma head_add_count {cap h t : Nat} (hh : h < cap) (ht : t < cap) :
    (h + (cap + t - h) % cap) % cap = t := by
  rw [count_closed hh ht]
  by_cases hle : h ≤ t
  · rw [if_pos hle, show h + (t - h) = t by omega]
    exact Nat.mod_eq_of_lt ht
  · rw [if_neg hle, show h + (cap + t - h) = cap + t by omega, Nat.add_mod_left]
    exact Nat.mod_eq_of_lt ht

/-- A successful push raises the occupancy by one. -/
lemma count_step_tail {cap h t : Nat} (hh : h < cap) (ht : t < cap)
    (hne : (t + 1) % cap ≠ h) :
    (cap + (t + 1) % cap - h) % cap = (cap + t - h) % cap + 1 := by
  have hu2 : (t + 1) % cap < cap := Nat.mod_lt _ (by omega)
  have hu := step_mod ht
  rw [count_closed hh hu2, count_closed hh ht]
  split_ifs at hu ⊢ <;> omega

/-- A successful pop lowers the occupancy by one. -/
lemma count_step_head {cap h t : Nat} (hh : h < cap) (ht : t < cap)
    (hne : h ≠ t) :
    (cap + t - (h + 1) % cap) % cap = (cap + t - h) % cap - 1 := by
  have hu2 : (h + 1) % cap < cap := Nat.mod_lt _ (by omega)
  have hu := step_mod hh
  rw [count_closed hu2 ht, count_closed hh ht]
  split_ifs at hu ⊢ <;> omega

/-- Writing one slot then reading it back yields the written value. -/
lemma getD_set_self {α : Type} {l : List α} {m : Nat} {a d : α}
    (hm : m < l.length) : (l.set m a).getD m d = a := by
  induction l generalizing m with
  | nil => simp at hm
  | cons x xs ih =>
    cases m with
    | zero => simp
    | succ m' => simpa using ih (by simpa using hm)

/-- Writing one slot leaves every other slot unchanged. -/
lemma getD_set_ne {α : Type} {l : List α} {m n : Nat} {a d : α}
    (hmn : m ≠ n) : (l.set m a).getD n d = l.getD n d := by
  induction l generalizing m n with
  | nil => simp
  | cons x xs ih =>
    cases m with
    | zero =>
      cases n with
      | zero => omega
      | succ n' => simp
    | succ m' =>
      cases n with
      | zero => simp
      | succ n' => simpa using ih (by omega)

/-- A freshly allocated buffer reads back its fill value everywhere. -/
lemma getD_replicate {α : Type} {n i : Nat} {d : α} :
    (List.replicate n d).getD i d = d := by
  induction n generalizing i with
  | zero => simp
  | succ n' ih =>
    cases i with
    | zero => simp [List.replicate]
    | succ i' => simp only [List.replicate, List.getD_cons_succ]; exact ih

/-- Unfolding of `tryPush` when the ring is full. -/
lemma tryPush_full {T : Type} {v : T} {s : RingState T} {k : Nat}
    (hcap : s.cap = 2 ^ k) (hfull : (s.tail + 1) % s.cap = s.head) :
    tryPush v s = (false, s) := by
  have hmask : (s.tail + 1) &&& (s.cap - 1) = (s.tail + 1) % s.cap := by
    rw [hcap]; exact land_mask _ _
  unfold tryPush
  simp only []
  rw [hmask, hfull]
  simp

/-- Unfolding of `tryPush` when there is a free slot. -/
lemma tryPush_no {T : Type} {v : T} {s : RingState T} {k : Nat}
    (hcap : s.cap = 2 ^ k) (hnf : (s.tail + 1) % s.cap ≠ s.head) :
    tryPush v s = (true,
      { s with buf := s.buf.set s.tail (some v),
               tail := (s.tail + 1) % s.cap }) := by
  have hmask : (s.tail + 1) &&& (s.cap - 1) = (s.tail + 1) % s.cap := by
    rw [hcap]; exact land_mask _ _
  unfold tryPush
  simp only []
  rw [hmask]
  simp [hnf]

/-- The modelled `try_emplace` coincides with `try_push` call for call. -/
lemma tryEmplace_eq_tryPush {T : Type} (v : T) (s : RingState T) :
    tryEmplace v s = tryPush v s := rfl

/-- Unfolding of `tryPop` on an empty ring. -/
lemma tryPop_empty {T : Type} {s : RingState T} (he : s.head = s.tail) :
    tryPop s = (none, s) := by
  unfold tryPop
  simp [he]

/-- Unfolding of `tryPop` on a nonempty ring. -/
lemma tryPop_go {T : Type} {s : RingState T} {k : Nat}
    (hcap : s.cap = 2 ^ k) (hne : s.head ≠ s.tail) :
    tryPop s = (s.buf.getD s.head none,
      { s with buf := s.buf.set s.head none,
               head := (s.head + 1) % s.cap }) := by
  have hmask : (s.head + 1) &&& (s.cap - 1) = (s.head + 1) % s.cap := by
    rw [hcap]; exact land_mask _ _
  unfold tryPop
  simp only []
  rw [hmask]
  simp [hne]

/-- The storage size of an invariant-satisfying state is positive. -/
lemma Inv.capPos {T : Type} {s : RingState T} {q : List T} (h : Inv s q) :
    0 < s.cap := by
  obtain ⟨k, hk⟩ := h.pow
  rw [hk]
  exact Nat.pos_pow_of_pos k (by norm_num)

/-- Under the invariant, `head_ == tail_` holds exactly on the empty queue. -/
lemma Inv.empty_iff {T : Type} {s : RingState T} {q : List T} (h : Inv s q) :
    s.head = s.tail ↔ q.length = 0 := by
  have hh := h.hlt
  have ht := h.tlt
  rw [h.qlen, count_closed hh ht]
  split_ifs <;> omega

/-- Under the invariant, the push-side full test `(tail_+1) % cap_ == head_`
holds exactly when the queue already holds `cap_ - 1` elements. -/
lemma Inv.full_iff {T : Type} {s : RingState T} {q : List T} (h : Inv s q) :
    (s.tail + 1) % s.cap = s.head ↔ q.length = s.cap - 1 := by
  have hh := h.hlt
  have ht := h.tlt
  have hs := step_mod ht
  rw [h.qlen, count_closed hh ht]
  split_ifs at hs ⊢ <;> omega

/-- A push on a non-full ring succeeds and appends the value to the abstract
queue. -/
lemma push_ok {T : Type} {s : RingState T} {q : List T} (v : T) (h : Inv s q)
    (hnf : (s.tail + 1) % s.cap ≠ s.head) :
    ∃ s2, tryPush v s = (true, s2) ∧ Inv s2 (q ++ [v]) ∧
      s2.cap = s.cap ∧ s2.head = s.head := by
  obtain ⟨k, hk⟩ := h.pow
  have hcpos : 0 < s.cap := h.capPos
  have htail2 : (s.tail + 1) % s.cap < s.cap := Nat.mod_lt _ hcpos
  have hcount : q.length < s.cap := by
    rw [h.qlen]
    exact Nat.mod_lt _ hcpos
  refine ⟨_, tryPush_no hk hnf, ⟨⟨k, hk⟩, h.hlt, htail2, ?_, ?_, ?_⟩, rfl, rfl⟩
  · dsimp only
    rw [List.length_set]
    exact h.blen
  · dsimp only
    rw [count_step_tail h.hlt h.tlt hnf, ← h.qlen]
    simp
  · intro i hi
    dsimp only at hi ⊢
    rw [List.length_append, List.length_singleton] at hi
    by_cases hcase : i < q.length
    · have htl : s.tail = (s.head + q.length) % s.cap := by
        rw [h.qlen]
        exact (head_add_count h.hlt h.tlt).symm
      have hne : (s.head + i) % s.cap ≠ s.tail := by
        intro hcontra
        rw [htl] at hcontra
        have := mod_cancel (lt_trans hcase hcount) hcount hcontra
        omega
      rw [getD_set_ne hne.symm, h.qval i hcase]
      have hgv : (q ++ [v]).get
          ⟨i, by simp only [List.length_append, List.length_singleton]; omega⟩ =
          q.get ⟨i, hcase⟩ := by
        rw [List.get_eq_getElem, List.get_eq_getElem]
        exact List.getElem_append_left hcase
      rw [hgv]
    · have hieq : i = q.length := by omega
      subst hieq
      have hpos : (s.head + q.length) % s.cap = s.tail := by
        rw [h.qlen]
        exact head_add_count h.hlt h.tlt
      rw [hpos, getD_set_self (by rw [h.blen]; exact h.tlt)]
      have hgv : (q ++ [v]).get
          ⟨q.length,
           by simp only [List.length_append, List.length_singleton]; omega⟩ =
          v := by
        rw [List.get_eq_getElem]
        exact List.getElem_concat_length q v q.length rfl _
      rw [hgv]

/-- A push on a full ring fails and leaves the state unchanged. -/
lemma push_fail {T : Type} {s : RingState T} {q : List T} (v : T)
    (h : Inv s q) (hf : q.length = s.cap - 1) : tryPush v s = (false, s) := by
  obtain ⟨k, hk⟩ := h.pow
  exact tryPush_full hk (h.full_iff.mpr hf)

/-- A pop on a nonempty ring succeeds, returns the oldest element, and
removes it from the abstract queue. -/
lemma pop_ok {T : Type} {s : RingState T} {q : List T} (h : Inv s q)
    (hne : s.head ≠ s.tail) :
    ∃ v q2 s2, q = v :: q2 ∧ tryPop s = (some v, s2) ∧ Inv s2 q2 ∧
      s2.cap = s.cap ∧ s2.tail = s.tail := by
  obtain ⟨k, hk⟩ := h.pow
  have hcpos : 0 < s.cap := h.capPos
  have hcount : q.length < s.cap := by
    rw [h.qlen]
    exact Nat.mod_lt _ hcpos
  have hql : q.length ≠ 0 := fun h0 => hne (h.empty_iff.mpr h0)
  obtain ⟨v, q2, rfl⟩ : ∃ v q2, q = v :: q2 := by
    cases q with
    | nil => simp at hql
    | cons a as => exact ⟨a, as, rfl⟩
  have hv : s.buf.getD s.head none = some v := by
    have h0 := h.qval 0 (by simp)
    rw [Nat.add_zero, Nat.mod_eq_of_lt h.hlt] at h0
    exact h0
  refine ⟨v, q2,
    { s with buf := s.buf.set s.head none, head := (s.head + 1) % s.cap },
    rfl, ?_, ?_, rfl, rfl⟩
  · rw [tryPop_go hk hne, hv]
  · refine ⟨⟨k, hk⟩, ?_, h.tlt, ?_, ?_, ?_⟩
    · exact Nat.mod_lt _ hcpos
    · dsimp only
      rw [List.length_set]
      exact h.blen
    · dsimp only
      rw [count_step_head h.hlt h.tlt hne, ← h.qlen]
      simp
    · intro i hi
      dsimp only at hi ⊢
      have hp : ((s.head + 1) % s.cap + i) % s.cap =
          (s.head + (i + 1)) % s.cap := by
        rw [Nat.mod_add_mod]
        congr 1
        omega
      rw [hp]
      have hi1 : i + 1 < (v :: q2).length := by
        simp only [List.length_cons]
        omega
      have hne2 : (s.head + (i + 1)) % s.cap ≠ s.head := by
        intro hcontra
        have hcontra2 : (s.head + (i + 1)) % s.cap = (s.head + 0) % s.cap := by
          simp only [Nat.add_zero, Nat.mod_eq_of_lt h.hlt]
          exact hcontra
        have hi1c : i + 1 < s.cap := by
          simp only [List.length_cons] at hcount
          omega
        have := mod_cancel hi1c hcpos hcontra2
        omega
      rw [getD_set_ne hne2.symm, h.qval (i + 1) hi1]
      have hgv : (v :: q2).get ⟨i + 1, hi1⟩ = q2.get ⟨i, hi⟩ :=
        List.get_cons_succ
      rw [hgv]

/-- The storage size chosen by the constructor. -/
lemma mkRing_cap_def (T : Type) (r : Nat) :
    (mkRing T r).cap = if isPow2 r then r else ceilPow2 r := rfl

/-- Both counters start at zero. -/
lemma mkRing_head (T : Type) (r : Nat) : (mkRing T r).head = 0 := rfl

/-- Both counters start at zero. -/
lemma mkRing_tail (T : Type) (r : Nat) : (mkRing T r).tail = 0 := rfl

/-- The freshly constructed buffer is uninitialised everywhere. -/
lemma mkRing_buf (T : Type) (r : Nat) :
    (mkRing T r).buf = List.replicate (mkRing T r).cap none := rfl

/-- For any representable request the constructor's storage size is a power
of two. -/
lemma mkRing_cap_pow {r : Nat} (hr : r ≤ 2 ^ 63) (T : Type) :
    ∃ k, (mkRing T r).cap = 2 ^ k := by
  rw [mkRing_cap_def]
  by_cases hp : isPow2 r = true
  · rw [if_pos hp]
    exact isPow2_iff.mp hp
  · rw [if_neg hp]
    by_cases h1 : r ≤ 1
    · refine ⟨0, ?_⟩
      unfold ceilPow2
      rw [if_pos h1]
      norm_num
    · exact ⟨(r - 1).log2 + 1, ceilPow2_eq_pow (by omega) hr⟩

/-- A freshly constructed ring satisfies the invariant with the empty queue. -/
lemma Inv_mkRing (T : Type) {r : Nat} (hr : r ≤ 2 ^ 63) :
    Inv (mkRing T r) [] := by
  obtain ⟨k, hk⟩ := mkRing_cap_pow hr T
  have hcpos : 0 < (mkRing T r).cap := by
    rw [hk]
    exact Nat.pos_pow_of_pos k (by norm_num)
  refine ⟨⟨k, hk⟩, ?_, ?_, ?_, ?_, ?_⟩
  · rw [mkRing_head]
    exact hcpos
  · rw [mkRing_tail]
    exact hcpos
  · rw [mkRing_buf, List.length_replicate]
  · rw [mkRing_head, mkRing_tail]
    simp [Nat.mod_self]
  · intro i hi
    simp at hi

/-- With in-range counters and at least `cap` fuel, the destructor's drain
loop performs exactly the occupancy's worth of destructions. -/
lemma destroyLoop_eq {cap t k : Nat} (hcap : cap = 2 ^ k) (ht : t < cap) :
    ∀ fuel h, h < cap → (cap + t - h) % cap ≤ fuel →
      destroyLoop cap t fuel h = (cap + t - h) % cap := by
  intro fuel
  induction fuel with
  | zero =>
    intro h hh hle
    simp only [destroyLoop]
    omega
  | succ n ih =>
    intro h hh hle
    have hcpos : 0 < cap := by omega
    simp only [destroyLoop]
    by_cases he : h = t
    · rw [if_pos he, he]
      rw [show cap + t - t = cap by omega, Nat.mod_self]
    · rw [if_neg he]
      have hmask : (h + 1) &&& (cap - 1) = (h + 1) % cap := by
        rw [hcap]
        exact land_mask _ _
      have hh2 : (h + 1) % cap < cap := Nat.mod_lt _ hcpos
      have hstep := count_step_head hh ht he
      have hcnt : (cap + t - h) % cap ≠ 0 := by
        rw [count_closed hh ht]
        split_ifs <;> omega
      rw [hmask, ih ((h + 1) % cap) hh2 (by omega)]
      omega

/-- For an invariant-satisfying state the destructor destroys exactly the
elements of the abstract queue, one destruction per element. -/
lemma destructorCount_eq {T : Type} {s : RingState T} {q : List T}
    (h : Inv s q) : destructorCount s = q.length := by
  obtain ⟨k, hk⟩ := h.pow
  unfold destructorCount
  rw [destroyLoop_eq hk h.tlt s.cap s.head h.hlt
    (Nat.le_of_lt (Nat.mod_lt _ h.capPos))]
  exact h.qlen.symm

/-- Pushing any list that fits in the free space succeeds entirely and
appends the list to the abstract queue. -/
lemma pushAll_ok {T : Type} :
    ∀ (vs : List T) (s : RingState T) (q : List T), Inv s q →
      q.length + vs.length ≤ s.cap - 1 →
      ∃ s2, pushAll s vs = (true, s2) ∧ Inv s2 (q ++ vs) ∧
        s2.cap = s.cap := by
  intro vs
  induction vs with
  | nil =>
    intro s q h _
    exact ⟨s, rfl, by simpa using h, rfl⟩
  | cons v vs ih =>
    intro s q h hle
    simp only [List.length_cons] at hle
    have hnotfull : q.length ≠ s.cap - 1 := by omega
    have hnf : (s.tail + 1) % s.cap ≠ s.head := fun hc =>
      hnotfull (h.full_iff.mp hc)
    obtain ⟨s1, hps, hinv1, hcap1, _⟩ := push_ok v h hnf
    obtain ⟨s2, hps2, hinv2, hcap2⟩ := ih s1 (q ++ [v]) hinv1 (by
      rw [List.length_append, List.length_singleton, hcap1]
      omega)
    refine ⟨s2, ?_, ?_, by rw [hcap2, hcap1]⟩
    · simp only [pushAll]
      rw [hps]
      simp only []
      rw [hps2]
      simp
    · rw [List.append_assoc] at hinv2
      simpa using hinv2

/-- FIFO refinement: running any sequential history from an
invariant-satisfying state, the initial queue followed by the successfully
pushed values equals the successfully popped values followed by the final
queue contents.  In particular the pops return pushed values in push order. -/
lemma runOps_fifo {T : Type} :
    ∀ (ops : List (Op T)) (s : RingState T) (q : List T), Inv s q →
      ∃ qf, Inv (runOps s ops).1 qf ∧
        q ++ (runOps s ops).2.1 = (runOps s ops).2.2 ++ qf := by
  intro ops
  induction ops with
  | nil =>
    intro s q h
    exact ⟨q, h, by simp [runOps]⟩
  | cons op rest ih =>
    intro s q h
    cases op with
    | push v =>
      by_cases hc : (s.tail + 1) % s.cap = s.head
      · obtain ⟨k, hk⟩ := h.pow
        have hps := tryPush_full (v := v) hk hc
        obtain ⟨qf, hinv, heq⟩ := ih s q h
        refine ⟨qf, ?_, ?_⟩
        · simp only [runOps]
          rw [hps]
          exact hinv
        · simp only [runOps]
          rw [hps]
          simpa using heq
      · obtain ⟨s1, hps, hinv1, _, _⟩ := push_ok v h hc
        obtain ⟨qf, hinv, heq⟩ := ih s1 (q ++ [v]) hinv1
        refine ⟨qf, ?_, ?_⟩
        · simp only [runOps]
          rw [hps]
          exact hinv
        · simp only [runOps]
          rw [hps]
          simp only [List.append_assoc, List.singleton_append] at heq
          simpa using heq
    | pop =>
      by_cases hc : s.head = s.tail
      · have hps := tryPop_empty hc
        obtain ⟨qf, hinv, heq⟩ := ih s q h
        refine ⟨qf, ?_, ?_⟩
        · simp only [runOps]
          rw [hps]
          exact hinv
        · simp only [runOps]
          rw [hps]
          simpa using heq
      · obtain ⟨v, q2, s2, hq, hps, hinv2, _, _⟩ := pop_ok h hc
        obtain ⟨qf, hinv, heq⟩ := ih s2 q2 hinv2
        refine ⟨qf, ?_, ?_⟩
        · simp only [runOps]
          rw [hps]
          exact hinv
        · simp only [runOps]
          rw [hps]
          subst hq
          simpa using heq

/-- Every reachable state of a constructed ring satisfies the invariant for
some abstract queue, and keeps the storage size fixed at construction. -/
lemma reachable_inv {T : Type} {r : Nat} (hr : r ≤ 2 ^ 63) {s : RingState T}
    (hs : Reachable (mkRing T r) s) :
    ∃ q, Inv s q ∧ s.cap = (mkRing T r).cap := by
  induction hs with
  | init => exact ⟨[], Inv_mkRing T hr, rfl⟩
  | @push v s1 hs1 ih =>
    obtain ⟨q, hq, hcap⟩ := ih
    by_cases hc : (s1.tail + 1) % s1.cap = s1.head
    · obtain ⟨k, hk⟩ := hq.pow
      rw [tryPush_full hk hc]
      exact ⟨q, hq, hcap⟩
    · obtain ⟨s2, hps, hinv, hcap2, _⟩ := push_ok v hq hc
      rw [hps]
      exact ⟨q ++ [v], hinv, by rw [hcap2, hcap]⟩
  | @emplace v s1 hs1 ih =>
    obtain ⟨q, hq, hcap⟩ := ih
    rw [tryEmplace_eq_tryPush]
    by_cases hc : (s1.tail + 1) % s1.cap = s1.head
    · obtain ⟨k, hk⟩ := hq.pow
      rw [tryPush_full hk hc]
      exact ⟨q, hq, hcap⟩
    · obtain ⟨s2, hps, hinv, hcap2, _⟩ := push_ok v hq hc
      rw [hps]
      exact ⟨q ++ [v], hinv, by rw [hcap2, hcap]⟩
  | @pop s1 hs1 ih =>
    obtain ⟨q, hq, hcap⟩ := ih
    by_cases hc : s1.head = s1.tail
    · rw [tryPop_empty hc]
      exact ⟨q, hq, hcap⟩
    · obtain ⟨v, q2, s2, _, hps, hinv, hcap2, _⟩ := pop_ok hq hc
      rw [hps]
      exact ⟨q2, hinv, by rw [hcap2, hcap]⟩

/-- C1, counterexample: the spec's concrete scenario requests capacity 3 and
expects `capacity()` to report `ceilPowerOfTwo(3+1) - 1 = 3`, but the code
stores `ceilPow2(3) = 4` in `cap_` and `capacity()` returns `cap_` itself. -/
theorem C1_counterexample :
    capacity (mkRing Nat 3) ≠ ceilPow2 (3 + 1) - 1 := by decide

/-- C1 (amended): for every representable requested capacity `r`,
`capacity()` returns the effective storage size, namely the least power of
two that is at least `max r 1` (so `r` itself when `r` is a power of two and
`ceilPow2 r` otherwise); it is always at least 1, it counts the sentinel
slot, and a request of 0 yields `capacity() = 1`. -/
theorem C1_capacity_least_pow2 (T : Type) {r : Nat} (hr : r ≤ 2 ^ 63) :
    (∃ k, capacity (mkRing T r) = 2 ^ k ∧ max r 1 ≤ 2 ^ k ∧
      ∀ j, max r 1 ≤ 2 ^ j → k ≤ j) ∧
    1 ≤ capacity (mkRing T r) ∧ capacity (mkRing T 0) = 1 := by
  have hcap : capacity (mkRing T r) = if isPow2 r then r else ceilPow2 r :=
    mkRing_cap_def T r
  have hmain : ∃ k, capacity (mkRing T r) = 2 ^ k ∧ max r 1 ≤ 2 ^ k ∧
      ∀ j, max r 1 ≤ 2 ^ j → k ≤ j := by
    by_cases hp : isPow2 r = true
    · obtain ⟨k, rfl⟩ := isPow2_iff.mp hp
      rw [hcap, if_pos hp]
      have h1 : (1 : Nat) ≤ 2 ^ k := Nat.one_le_two_pow
      refine ⟨k, rfl, by omega, ?_⟩
      intro j hj
      rw [Nat.max_eq_left h1] at hj
      exact (Nat.pow_le_pow_iff_right (by norm_num)).mp hj
    · rw [hcap, if_neg hp]
      by_cases h1 : r ≤ 1
      · have hr0 : r = 0 := by
          rcases Nat.le_one_iff_eq_zero_or_eq_one.mp h1 with h | h
          · exact h
          · exfalso
            apply hp
            rw [h]
            decide
        subst hr0
        refine ⟨0, rfl, by decide, fun j _ => Nat.zero_le j⟩
      · have hge2 : 2 ≤ r := by omega
        have hlog := ceilPow2_eq_pow hge2 hr
        set L := (r - 1).log2 with hLdef
        have hlo : 2 ^ L ≤ r - 1 := Nat.log2_self_le (by omega)
        have hhi : r - 1 < 2 ^ (L + 1) := Nat.lt_log2_self
        refine ⟨L + 1, hlog, ?_, ?_⟩
        · rw [Nat.max_eq_left (by omega)]
          omega
        · intro j hj
          rw [Nat.max_eq_left (by omega)] at hj
          have hlt : 2 ^ L < 2 ^ j := by omega
          have := (Nat.pow_lt_pow_iff_right (a := 2) (by norm_num)).mp hlt
          omega
  refine ⟨hmain, ?_, rfl⟩
  obtain ⟨k, hk, _, _⟩ := hmain
  rw [hk]
  exact Nat.one_le_two_pow

/-- C1 witness at the concrete request 5. -/
theorem C1_capacity_least_pow2_witness :
    ((∃ k, capacity (mkRing Nat 5) = 2 ^ k ∧ max 5 1 ≤ 2 ^ k ∧
      ∀ j, max 5 1 ≤ 2 ^ j → k ≤ j) ∧
    1 ≤ capacity (mkRing Nat 5) ∧ capacity (mkRing Nat 0) = 1) ∧
    capacity (mkRing Nat 5) = 8 :=
  ⟨C1_capacity_least_pow2 Nat (by norm_num), by decide⟩

/-- C2, counterexample: on a ring built with requested capacity 2 the code
reports `capacity() = 2`, yet pushing 2 values in sequence does not all
succeed: the second push already finds the ring full. -/
theorem C2_counterexample :
    capacity (mkRing Nat 2) = 2 ∧
    (pushAll (mkRing Nat 2) [10, 20]).1 = false := by decide

/-- C2 (amended): from an empty ring, pushing exactly `capacity() - 1`
values in sequence all succeed, and the next `try_push` returns failure,
changes no state and constructs no element. -/
theorem C2_saturation {T : Type} {r : Nat} (hr : r ≤ 2 ^ 63) (vs : List T)
    (hlen : vs.length = capacity (mkRing T r) - 1) :
    ∃ s2, pushAll (mkRing T r) vs = (true, s2) ∧
      ∀ w, tryPush w s2 = (false, s2) := by
  obtain ⟨s2, hps, hinv, hcap⟩ :=
    pushAll_ok vs (mkRing T r) [] (Inv_mkRing T hr) (by
      simp only [List.length_nil, Nat.zero_add]
      rw [hlen]
      exact Nat.le_refl _)
  refine ⟨s2, hps, fun w => push_fail w hinv ?_⟩
  simp only [List.nil_append]
  rw [hlen, hcap]
  rfl

/-- C2 witness: requested capacity 4 gives `capacity() = 4`; three pushes
succeed and a fourth fails. -/
theorem C2_saturation_witness :
    ∃ s2, pushAll (mkRing Nat 4) [1, 2, 3] = (true, s2) ∧
      ∀ w, tryPush w s2 = (false, s2) :=
  C2_saturation (by norm_num) [1, 2, 3] (by decide)

/-- C3: in the sequential SPSC model, for any history of operations on an
initially empty ring the successfully pushed values are exactly the
successfully popped values followed by what is still queued, so pops return
pushed values in push order; and on an otherwise-idle non-degenerate ring a
push immediately followed by a pop returns the pushed value. -/
theorem C3_fifo_order :
    (∀ (T : Type) (s : RingState T) (ops : List (Op T)), Inv s [] →
      ∃ qf, Inv (runOps s ops).1 qf ∧
        (runOps s ops).2.1 = (runOps s ops).2.2 ++ qf) ∧
    (∀ (T : Type) (v : T) (s : RingState T), Inv s [] → 2 ≤ s.cap →
      ∃ s1 s2, tryPush v s = (true, s1) ∧ tryPop s1 = (some v, s2) ∧
        Inv s2 []) := by
  constructor
  · intro T s ops h
    obtain ⟨qf, h1, h2⟩ := runOps_fifo ops s [] h
    exact ⟨qf, h1, by simpa using h2⟩
  · intro T v s h hcap
    have hnf : (s.tail + 1) % s.cap ≠ s.head := by
      intro hc
      have := h.full_iff.mp hc
      simp only [List.length_nil] at this
      omega
    obtain ⟨s1, hps, hinv1, hcap1, _⟩ := push_ok v h hnf
    have hne : s1.head ≠ s1.tail := by
      intro hc
      have := hinv1.empty_iff.mp hc
      simp at this
    obtain ⟨w, q2, s2, hq, hpop, hinv2, _, _⟩ := pop_ok hinv1 hne
    simp only [List.nil_append] at hq
    have hw : w = v := by
      injection hq with h1 h2
      exact h1.symm
    have hq2 : q2 = [] := by
      injection hq with h1 h2
      exact h2.symm
    subst hw
    subst hq2
    exact ⟨s1, s2, hps, hpop, hinv2⟩

/-- C3 witness: a concrete push-push-pop-pop history on a ring of storage 4,
and the concrete round trip. -/
theorem C3_fifo_order_witness :
    (∃ qf, Inv (runOps (mkRing Nat 4) [Op.push 1, Op.push 2, Op.pop, Op.pop]).1 qf ∧
      (runOps (mkRing Nat 4) [Op.push 1, Op.push 2, Op.pop, Op.pop]).2.1 =
        (runOps (mkRing Nat 4) [Op.push 1, Op.push 2, Op.pop, Op.pop]).2.2 ++ qf) ∧
    (∃ s1 s2, tryPush 7 (mkRing Nat 4) = (true, s1) ∧
      tryPop s1 = (some 7, s2) ∧ Inv s2 []) :=
  ⟨C3_fifo_order.1 Nat (mkRing Nat 4) [Op.push 1, Op.push 2, Op.pop, Op.pop]
      (Inv_mkRing Nat (by norm_num)),
    C3_fifo_order.2 Nat 7 (mkRing Nat 4) (Inv_mkRing Nat (by norm_num))
      (by decide)⟩

/-- C4: at a ring with spare capacity, a failing element construction inside
`try_push` surfaces to the caller (`raised`) with the ring state unchanged,
because `try_push` is `noexcept(noexcept(T(v)))`; but the same failure inside
`try_emplace` hits its unconditional `noexcept` and calls `std::terminate`
(`terminated`) instead of surfacing to the caller, contradicting the spec's
requirement that the failure propagate. -/
theorem C4_construction_failure :
    tryPushWith (none : Option Nat) (mkRing Nat 4) =
      (PushOutcome.raised, mkRing Nat 4) ∧
    tryEmplaceWith (none : Option Nat) (mkRing Nat 4) =
      (PushOutcome.terminated, mkRing Nat 4) := by decide

/-- C5: the move-taking overload of `try_push` checks for space before
touching the source: on failure the source is not moved from and the state
is unchanged; the source is moved from exactly on success; and the overload
agrees with the copy overload on result and state. -/
theorem C5_move_overload_checks_first {T : Type} (v : T) (s : RingState T) :
    ((tryPushMove v s).1 = false →
      (tryPushMove v s).2.2 = false ∧ (tryPushMove v s).2.1 = s) ∧
    ((tryPushMove v s).1 = true → (tryPushMove v s).2.2 = true) ∧
    (tryPushMove v s).1 = (tryPush v s).1 ∧
    (tryPushMove v s).2.1 = (tryPush v s).2 := by
  unfold tryPushMove tryPush
  by_cases hc : ((s.tail + 1) &&& (s.cap - 1)) = s.head <;> simp [hc]

/-- C5 witness: a full ring (storage 1) rejects the move push and leaves the
source unmoved and the state unchanged. -/
theorem C5_move_overload_checks_first_witness :
    (tryPushMove 7 (mkRing Nat 1)).2.2 = false ∧
      (tryPushMove 7 (mkRing Nat 1)).2.1 = mkRing Nat 1 :=
  (C5_move_overload_checks_first 7 (mkRing Nat 1)).1 (by decide)

/-- C6: calling `try_pop` on an empty ring (`head_ == tail_`) returns
failure, leaves the output untouched (modelled by the `none` result), and
changes no ring state; under the invariant that situation is exactly the
empty queue. -/
theorem C6_pop_empty {T : Type} {s : RingState T} {q : List T} (h : Inv s q)
    (he : s.head = s.tail) : tryPop s = (none, s) ∧ q = [] := by
  refine ⟨tryPop_empty he, ?_⟩
  have := h.empty_iff.mp he
  exact List.length_eq_zero.mp this

/-- C6 witness: the freshly constructed ring of storage 4 is empty and pop
fails on it without changing anything. -/
theorem C6_pop_empty_witness :
    tryPop (mkRing Nat 4) = (none, mkRing Nat 4) ∧ ([] : List Nat) = [] :=
  C6_pop_empty (Inv_mkRing Nat (by norm_num)) rfl

/-- C7: in every reachable state the occupancy `(tail - head) mod cap` stays
between 0 and `cap - 1`, `head == tail` holds exactly when the occupancy is
0 (empty), `(tail + 1) mod cap == head` exactly when it is `cap - 1` (full),
and the occupancy counts the actual queued elements, so the number of live
elements never reaches the full storage size. -/
theorem C7_occupancy_invariant {T : Type} {r : Nat} (hr : r ≤ 2 ^ 63)
    {s : RingState T} (hs : Reachable (mkRing T r) s) :
    liveCount s ≤ s.cap - 1 ∧
    (s.head = s.tail ↔ liveCount s = 0) ∧
    (((s.tail + 1) % s.cap = s.head) ↔ liveCount s = s.cap - 1) ∧
    ∃ q, Inv s q ∧ q.length = liveCount s := by
  obtain ⟨q, hq, _⟩ := reachable_inv hr hs
  have h1 : liveCount s ≤ s.cap - 1 := by
    unfold liveCount
    have := Nat.mod_lt (s.cap + s.tail - s.head) hq.capPos
    omega
  refine ⟨h1, ?_, ?_, q, hq, hq.qlen⟩
  · unfold liveCount
    rw [← hq.qlen]
    exact hq.empty_iff
  · unfold liveCount
    rw [← hq.qlen]
    exact hq.full_iff

/-- C7 witness at the initial state of a ring with requested capacity 4. -/
theorem C7_occupancy_invariant_witness :
    liveCount (mkRing Nat 4) ≤ (mkRing Nat 4).cap - 1 ∧
    ((mkRing Nat 4).head = (mkRing Nat 4).tail ↔ liveCount (mkRing Nat 4) = 0) ∧
    ((((mkRing Nat 4).tail + 1) % (mkRing Nat 4).cap = (mkRing Nat 4).head) ↔
      liveCount (mkRing Nat 4) = (mkRing Nat 4).cap - 1) ∧
    ∃ q, Inv (mkRing Nat 4) q ∧ q.length = liveCount (mkRing Nat 4) :=
  C7_occupancy_invariant (by norm_num) Reachable.init

/-- C8: constructing a ring, pushing `k` values (which all succeed when they
fit in the usable capacity) and then destroying the ring runs the element
destructor exactly `k` times. -/
theorem C8_destructor_count {T : Type} {r : Nat} (hr : r ≤ 2 ^ 63)
    (vs : List T) (hfit : vs.length ≤ capacity (mkRing T r) - 1) :
    ∃ s2, pushAll (mkRing T r) vs = (true, s2) ∧
      destructorCount s2 = vs.length := by
  obtain ⟨s2, hps, hinv, _⟩ :=
    pushAll_ok vs (mkRing T r) [] (Inv_mkRing T hr) (by
      simp only [List.length_nil, Nat.zero_add]
      exact hfit)
  refine ⟨s2, hps, ?_⟩
  rw [destructorCount_eq hinv]
  simp

/-- C8 witness: pushing three values into a ring of storage 4 and destroying
it destroys exactly three elements. -/
theorem C8_destructor_count_witness :
    ∃ s2, pushAll (mkRing Nat 4) [1, 2, 3] = (true, s2) ∧
      destructorCount s2 = 3 :=
  C8_destructor_count (by norm_num) [1, 2, 3] (by decide)

/-- C9: the default-constructed ring and the rings requested with capacity 0
or 1 all have storage size 1 (index mask 0); on any ring state with storage
1 and zeroed counters every push, emplace and pop fails and changes nothing,
and consequently every state reachable from such a ring is the initial state
itself: the ring can never hold an element. -/
theorem C9_degenerate_rings :
    (∀ T : Type, (mkRingDefault T).cap = 1 ∧ (mkRing T 0).cap = 1 ∧
      (mkRing T 1).cap = 1) ∧
    (∀ (T : Type) (v : T) (s : RingState T),
      s.cap = 1 → s.head = 0 → s.tail = 0 →
      tryPush v s = (false, s) ∧ tryEmplace v s = (false, s) ∧
        tryPop s = (none, s)) ∧
    (∀ (T : Type) (s : RingState T), Reachable (mkRing T 0) s →
      s = mkRing T 0) := by
  have hstuckPop : ∀ (T : Type) (s : RingState T),
      s.head = 0 → s.tail = 0 → tryPop s = (none, s) := by
    intro T s h2 h3
    unfold tryPop
    simp [h2, h3]
  have hstuck : ∀ (T : Type) (v : T) (s : RingState T),
      s.cap = 1 → s.head = 0 → s.tail = 0 →
      tryPush v s = (false, s) ∧ tryEmplace v s = (false, s) ∧
        tryPop s = (none, s) := by
    intro T v s h1 h2 h3
    refine ⟨?_, ?_, hstuckPop T s h2 h3⟩
    · unfold tryPush
      simp [h1, h2, h3]
    · unfold tryEmplace
      simp [h1, h2, h3]
  refine ⟨fun T => ⟨rfl, rfl, rfl⟩, hstuck, ?_⟩
  intro T s hs
  induction hs with
  | init => rfl
  | @push v s1 hs1 ih =>
    subst ih
    rw [(hstuck T v (mkRing T 0) rfl rfl rfl).1]
  | @emplace v s1 hs1 ih =>
    subst ih
    rw [(hstuck T v (mkRing T 0) rfl rfl rfl).2.1]
  | @pop s1 hs1 ih =>
    subst ih
    rw [hstuckPop T (mkRing T 0) rfl rfl]

/-- C9 witness at the concrete zero-capacity ring over Nat. -/
theorem C9_degenerate_rings_witness :
    tryPush 5 (mkRing Nat 0) = (false, mkRing Nat 0) ∧
    tryEmplace 5 (mkRing Nat 0) = (false, mkRing Nat 0) ∧
    tryPop (mkRing Nat 0) = (none, mkRing Nat 0) :=
  C9_degenerate_rings.2.1 Nat 5 (mkRing Nat 0) rfl rfl rfl

/-- C10: both counters start at 0, and in every reachable state both lie in
`[0, cap_)` because every store writes a value already masked by
`cap_ - 1`; the storage size itself never changes. -/
theorem C10_counters_in_range {T : Type} {r : Nat} (hr : r ≤ 2 ^ 63)
    {s : RingState T} (hs : Reachable (mkRing T r) s) :
    (mkRing T r).head = 0 ∧ (mkRing T r).tail = 0 ∧
    s.head < s.cap ∧ s.tail < s.cap ∧ s.cap = (mkRing T r).cap := by
  obtain ⟨q, hq, hcap⟩ := reachable_inv hr hs
  exact ⟨rfl, rfl, hq.hlt, hq.tlt, hcap⟩

/-- C10 witness: one successful push from the initial state of a ring of
storage 4 keeps both counters in range. -/
theorem C10_counters_in_range_witness :
    (mkRing Nat 4).head = 0 ∧ (mkRing Nat 4).tail = 0 ∧
    (tryPush 9 (mkRing Nat 4)).2.head < (tryPush 9 (mkRing Nat 4)).2.cap ∧
    (tryPush 9 (mkRing Nat 4)).2.tail < (tryPush 9 (mkRing Nat 4)).2.cap ∧
    (tryPush 9 (mkRing Nat 4)).2.cap = (mkRing Nat 4).cap :=
  @C10_counters_in_range Nat 4 (by norm_num) (tryPush 9 (mkRing Nat 4)).2
    (Reachable.push 9 Reachable.init)

end SPSC
